import Mathlib

/-!
Shallow embedding of the `mendsley/sched` cooperative scheduler
(`src/src/scheduler.cpp`, `src/src/sema.cpp`, `src/src/timer.cpp`,
`src/src/waitgroup.cpp`) together with proofs about its operations.

Tasks are identified by natural numbers (their addresses); the intrusive
`next` pointers of `sched::Task` are modelled as a function from task ids
to `Option Nat` (`none` = null pointer).  Machine integers are modelled as
`Nat`/`Int` with explicit reduction modulo `2^32` / `2^64` where the C
code's unsigned arithmetic can wrap.
-/

/-- The intrusive FIFO `TaskList` of `scheduler.cpp` (lines 59-62):
`front` and `last` pointers plus the `Task::next` links, the latter kept
as a map from task id to the id the `next` pointer holds. -/
structure TaskListState where
  front : Option Nat
  last : Option Nat
  nxt : Nat → Option Nat

/-- A `TaskList` with both pointers null and all `next` links null. -/
def emptyTaskList : TaskListState :=
  { front := none, last := none, nxt := fun _ => none }

/-- `taskListPush` (scheduler.cpp lines 96-106): if `last` is non-null,
set `last->next = task`, else set `front = task`; then `last = task` and
`task->next = nullptr`.  The two pointer writes are reflected in the
order of the `if` tests (the later write to `task->next` wins). -/
def taskListPush (s : TaskListState) (task : Nat) : TaskListState :=
  match s.last with
  | some l =>
      { front := s.front
        last := some task
        nxt := fun x => if x = task then none else if x = l then some task else s.nxt x }
  | none =>
      { front := some task
        last := some task
        nxt := fun x => if x = task then none else s.nxt x }

/-- `taskListPop` (scheduler.cpp lines 109-121): take `front`; if
non-null, advance `front` to `task->next`, null out `task->next`, and if
the new `front` is null also null out `last`. -/
def taskListPop (s : TaskListState) : Option Nat × TaskListState :=
  match s.front with
  | none => (none, s)
  | some task =>
      let newFront := s.nxt task
      (some task,
        { front := newFront
          last := if newFront = none then none else s.last
          nxt := fun x => if x = task then none else s.nxt x })

/-- The links of `nxt` spell out the list `l` starting from pointer `h`:
the reference functional view of one intrusive chain. -/
inductive TaskChain (nxt : Nat → Option Nat) : Option Nat → List Nat → Prop
  | nil : TaskChain nxt none []
  | cons (t : Nat) (l : List Nat) (h : TaskChain nxt (nxt t) l) :
      TaskChain nxt (some t) (t :: l)

/-- The abstraction relation between the intrusive `TaskList` and a
functional queue: `front` heads a chain spelling `q`, `last` is the last
element of `q`, and `q` has no duplicates (the source invariant that a
task is in at most one list at a time). -/
def represents (s : TaskListState) (q : List Nat) : Prop :=
  TaskChain s.nxt s.front q ∧ s.last = q.getLast? ∧ q.Nodup

/-- One operation against a task list: push a given task, or pop. -/
inductive QOp
  | push (t : Nat)
  | pop

/-- Run a sequence of operations against the intrusive `TaskList`,
collecting the result of every pop. -/
def runTaskList : TaskListState → List QOp → List (Option Nat)
  | _, [] => []
  | s, QOp.push t :: rest => runTaskList (taskListPush s t) rest
  | s, QOp.pop :: rest =>
      let r := taskListPop s
      r.1 :: runTaskList r.2 rest

/-- Run the same operations against the reference functional FIFO queue
(push appends at the tail, pop takes the head). -/
def runQueue : List Nat → List QOp → List (Option Nat)
  | _, [] => []
  | q, QOp.push t :: rest => runQueue (q ++ [t]) rest
  | q, QOp.pop :: rest => q.head? :: runQueue q.tail rest

/-- An operation sequence is valid when no push inserts a task already in
the queue (the source invariant: a task is in at most one list). -/
def validOps : List Nat → List QOp → Bool
  | _, [] => true
  | q, QOp.push t :: rest => !q.contains t && validOps (q ++ [t]) rest
  | q, QOp.pop :: rest => validOps q.tail rest

/-- Candidate selection of one `heapBubbleDown` iteration
(timer.cpp lines 85-117), returning the pair
`(candidateIndex, candidateWhen)` exactly as the source computes it:
start from the first child `timerIndex*4 + 1`, move to its pair partner
when `timers[candidateIndex+1]->when < when` (note: compared against the
node being pushed down, not against the first child), then consider
`siblingIndex = timerIndex + 2` and its pair partner, taking the sibling
pair when its deadline beats the current candidate. -/
def bubbleCandidate (when : Nat) (timers : List Nat) (timerIndex : Nat) : Nat × Nat :=
  let ntimers := timers.length
  let c0 := timerIndex * 4 + 1
  let p1 : Nat × Nat :=
    if c0 + 1 < ntimers ∧ timers.getD (c0 + 1) 0 < when
    then (c0 + 1, timers.getD (c0 + 1) 0)
    else (c0, timers.getD c0 0)
  let s0 := timerIndex + 2
  if s0 < ntimers then
    let p2 : Nat × Nat :=
      if s0 + 1 < ntimers ∧ timers.getD (s0 + 1) 0 < timers.getD s0 0
      then (s0 + 1, timers.getD (s0 + 1) 0)
      else (s0, timers.getD s0 0)
    if p2.2 < p1.2 then p2 else p1
  else p1

theorem bubbleCandidate_bounds (when : Nat) (timers : List Nat) (timerIndex : Nat)
    (h : timerIndex * 4 + 1 < timers.length) :
    timerIndex < (bubbleCandidate when timers timerIndex).1 ∧
      (bubbleCandidate when timers timerIndex).1 < timers.length := by
  unfold bubbleCandidate
  dsimp only
  split_ifs <;> simp_all <;> omega

/-- The loop of `heapBubbleDown` (timer.cpp lines 82-133).  The heap is
the list of `when` deadlines; `temp` and `when` are the deadline of the
node being sifted (captured once at function entry, as in the source).
Each iteration either stops (no child in range, or the candidate expires
no earlier than `when`) or writes the candidate into `timerIndex`, writes
`temp` into the candidate slot, and continues from the candidate index.
The `internalHeapIndex` back-pointers always equal the array position and
carry no ordering information, so they are not modelled. -/
def heapBubbleDownLoop (temp when : Nat) (timers : List Nat) (timerIndex : Nat) : List Nat :=
  if _hc : timers.length ≤ timerIndex * 4 + 1 then timers
  else
    let cand := bubbleCandidate when timers timerIndex
    if when ≤ cand.2 then timers
    else
      heapBubbleDownLoop temp when
        ((timers.set timerIndex (timers.getD cand.1 0)).set cand.1 temp) cand.1
termination_by timers.length - timerIndex
decreasing_by
  have hb := bubbleCandidate_bounds when timers timerIndex (by omega)
  simp only [List.length_set]
  omega

/-- `heapBubbleDown` (timer.cpp lines 74-134) on a heap of deadlines. -/
def heapBubbleDown (timers : List Nat) (timerIndex : Nat) : List Nat :=
  heapBubbleDownLoop (timers.getD timerIndex 0) (timers.getD timerIndex 0) timers timerIndex

/-- 4-ary min-heap property matching the parent rule `(i-1)/4` of
`heapBubbleUp` (timer.cpp line 56): every non-root node expires no
earlier than its parent. -/
def isMinHeap4 (l : List Nat) : Prop :=
  ∀ c, c < l.length → 0 < c → l.getD ((c - 1) / 4) 0 ≤ l.getD c 0

instance (l : List Nat) : Decidable (isMinHeap4 l) := by
  unfold isMinHeap4
  exact Nat.decidableBallLT _ _

/-- The heap property holds everywhere except possibly between the root
and its children: the precondition of a bubble-down from index 0. -/
def minHeap4ExceptRoot (l : List Nat) : Prop :=
  ∀ c, c < l.length → 0 < c → (c - 1) / 4 ≠ 0 → l.getD ((c - 1) / 4) 0 ≤ l.getD c 0

instance (l : List Nat) : Decidable (minHeap4ExceptRoot l) := by
  unfold minHeap4ExceptRoot
  exact Nat.decidableBallLT _ _

/-- The thread-local `SchedulerThread` as far as `detachFromThread` reads
it: which scheduler the thread is attached to, and whether
`currentTask == &initialTask`. -/
structure SchedThreadState where
  schedId : Nat
  currentIsInitial : Bool

/-- Scheduler counters touched by `detachFromThread`: the
`activeThreads` count and the number of `notify_all` broadcasts issued
on the run-queue condvar. -/
structure SchedCounters where
  activeThreads : Int
  broadcasts : Nat

/-- How a call to `detachFromThread` ends. -/
inductive DetachOutcome
  | earlyReturn
  | abortedOrNullDeref
deriving DecidableEq

/-- `sched::detachFromThread` (scheduler.cpp lines 216-243).  The first
guard reads `if (nullptr != thread)` — inverted: for every attached
thread the `assert_msg(thread != nullptr, ...)` condition holds (no
abort) and the function returns at once, so lines 230-242 (decrement of
`activeThreads`, `notify_all` when it reaches zero, fiber release) are
unreachable; with no attached thread, the `else if` chain reads
`thread->scheduler` through the null pointer (after a failed
`assert_msg`).  `tls` models the `s_tlsSchedulerThread` pointer. -/
def detachFromThread (tls : Option SchedThreadState) (_schedId : Nat)
    (st : SchedCounters) : DetachOutcome × SchedCounters :=
  match tls with
  | some _ => (DetachOutcome.earlyReturn, st)
  | none => (DetachOutcome.abortedOrNullDeref, st)

/-- One scheduler's state touched by `wake` and `spawn`: its run queue
and the number of `notify_one` calls issued on its condvar. -/
structure SchedulerState where
  taskList : TaskListState
  notifyOnes : Nat

/-- A world with two schedulers, to express which scheduler an operation
acts on.  Scheduler `false` is `s0`, scheduler `true` is `s1`. -/
structure WakeWorld where
  s0 : SchedulerState
  s1 : SchedulerState

/-- The scheduler a thread attached to `caller` sees. -/
def schedOf (w : WakeWorld) : Bool → SchedulerState
  | false => w.s0
  | true => w.s1

/-- How a call to `wake` ends. -/
inductive WakeOutcome
  | assertFailed
  | ok (w : WakeWorld)

/-- `sched::wake` (scheduler.cpp lines 365-381).  `tls` is the calling
thread's attachment (`s_tlsSchedulerThread->scheduler`): the function
reads `thread->scheduler` — the CALLING thread's scheduler — locks that
scheduler's run-queue mutex, pushes the task, unlocks, and calls
`notify_one` on that scheduler's condvar.  The `Task` record carries no
owning-scheduler field, so the scheduler the task was spawned on plays
no part.  A null thread or null task fails an assertion. -/
def wake (tls : Option Bool) (task : Option Nat) (w : WakeWorld) : WakeOutcome :=
  match tls with
  | none => WakeOutcome.assertFailed
  | some caller =>
      match task with
      | none => WakeOutcome.assertFailed
      | some t =>
          match caller with
          | false =>
              WakeOutcome.ok
                ⟨{ taskList := taskListPush w.s0.taskList t, notifyOnes := w.s0.notifyOnes + 1 },
                  w.s1⟩
          | true =>
              WakeOutcome.ok
                ⟨w.s0,
                  { taskList := taskListPush w.s1.taskList t, notifyOnes := w.s1.notifyOnes + 1 }⟩

/-- `tryAcquire` (sema.cpp lines 63-78) in a single-participant setting:
the CAS loop reads the counter once and, when it is non-zero, the
compare-exchange succeeds and stores `value - 1`.  Returns the success
flag and the new counter. -/
def semaTryAcquire (s : Nat) : Bool × Nat :=
  if s = 0 then (false, s) else (true, s - 1)

/-- The counter effect of `Sema::release` (sema.cpp line 133):
`s.fetch_add(1)` on a `uint32_t`, wrapping modulo `2^32`. -/
def semaReleaseCounter (s : Nat) : Nat := (s + 1) % 2 ^ 32

/-- `release()` then `acquire()` with no waiters registered on the root
bucket and no other participants: `release` increments the counter and
takes the `0 == root->waiters` fast return (sema.cpp lines 136-139);
`acquire` then runs its fast path `tryAcquire` (sema.cpp line 83). -/
def releaseThenAcquire (s : Nat) : Bool × Nat :=
  semaTryAcquire (semaReleaseCounter s)

/-- The counter operations of sema.cpp reachable without blocking:
`try_acquire` (lines 125-128), the `acquire` fast path (line 83), and
the `release` increment (line 133). -/
inductive SemaOp
  | tryAcq
  | acqFast
  | release

/-- Counter after one operation. -/
def semaCounterStep (s : Nat) : SemaOp → Nat
  | SemaOp.tryAcq => (semaTryAcquire s).2
  | SemaOp.acqFast => (semaTryAcquire s).2
  | SemaOp.release => semaReleaseCounter s

/-- The sequence of counter values produced by running a sequence of
counter operations. -/
def semaTrace (s : Nat) : List SemaOp → List Nat
  | [] => []
  | op :: rest =>
      let s2 := semaCounterStep s op
      s2 :: semaTrace s2 rest

/-- A `Waiter` node of sema.cpp (lines 38-43): the owning task and the
semaphore (by id) it waits on; the intrusive `next` pointer is the list
structure itself. -/
structure Waiter where
  owner : Nat
  sema : Nat
deriving DecidableEq

/-- `Sema::acquire` pushing a waiter (sema.cpp lines 106-110):
`w.next = root->head; root->head = &w` — the new node becomes the head
of the root bucket's list. -/
def waiterPush (head : List Waiter) (w : Waiter) : List Waiter := w :: head

/-- The bucket list produced by a chronological sequence of acquires
parking on the same root, earliest first. -/
def bucketOfPushes (pushes : List Waiter) : List Waiter :=
  pushes.foldl waiterPush []

/-- The waiter scan of `Sema::release` (sema.cpp lines 150-163): walk
from `root->head`, unlink the first node whose `sema` field matches, and
return it (its owner is the task passed to `wake`) together with the
remaining list. -/
def releaseFindWaiter (s : Nat) : List Waiter → Option Waiter × List Waiter
  | [] => (none, [])
  | w :: rest =>
      if w.sema = s then (some w, rest)
      else
        let r := releaseFindWaiter s rest
        (r.1, w :: r.2)

/-- Value of a 32-bit word reinterpreted as a signed `int32_t`
(two's complement). -/
def asInt32 (n : Nat) : Int :=
  if n % 2 ^ 32 < 2 ^ 31 then (n % 2 ^ 32 : Int) else (n % 2 ^ 32 : Int) - 2 ^ 32

/-- `static_cast<uint64_t>(delta) << 32` of waitgroup.cpp line 34:
sign-extend the `int` to 64 bits, shift left by 32, keep 64 bits. -/
def wgShiftedDelta (delta : Int) : Nat :=
  ((delta % (2 ^ 64 : Int)).toNat * 2 ^ 32) % 2 ^ 64

/-- Everything `WaitGroup::add` computes: the word observed after the
`fetch_add`, the two `assert` conditions, the final word stored, and how
many times `sema.release()` runs. -/
structure WgAddResult where
  st : Nat
  countOk : Bool
  invariantOk : Bool
  finalState : Nat
  releases : Nat
deriving DecidableEq

/-- `WaitGroup::add` (waitgroup.cpp lines 32-53) run without concurrent
interference (so `state.load() == st` holds at the third assert):
`st = state + (uint64(delta) << 32)` modulo `2^64`; `count` is the high
half as a signed `int32_t`, `waiters` the low half; when `count == 0 &&
waiters > 0` the word is zeroed and the semaphore released once per
waiter, otherwise the word is left at `st`. -/
def wgAdd (state : Nat) (delta : Int) : WgAddResult :=
  let st := (state + wgShiftedDelta delta) % 2 ^ 64
  let count : Int := asInt32 (st / 2 ^ 32)
  let waiters : Nat := st % 2 ^ 32
  let countOk := decide (0 ≤ count)
  let invariantOk := decide (waiters = 0 ∨ delta ≤ 0 ∨ count ≠ delta)
  if count = 0 ∧ 0 < waiters then
    { st := st, countOk := countOk, invariantOk := invariantOk,
      finalState := 0, releases := waiters }
  else
    { st := st, countOk := countOk, invariantOk := invariantOk,
      finalState := st, releases := 0 }

/-- `sched::spawn` (scheduler.cpp lines 306-327) on one scheduler's
queue state.  `newTaskId` is the address `construct<Task>` returns (the
`assert_msg` there guarantees it is non-null); the `entry` and
`entryParam` stored into the task record are opaque to the queue and not
modelled.  `0 >= stackSize` makes the fiber stack `1024*1024`; the task
is pushed onto the run queue under the mutex, `notify_one` is called,
and the task pointer is returned.
Result: (new scheduler state, returned task, fiber stack size). -/
def spawn (sched : SchedulerState) (newTaskId : Nat) (stackSize : Int) :
    SchedulerState × Nat × Nat :=
  let effStackSize : Nat := if stackSize ≤ 0 then 1024 * 1024 else stackSize.toNat
  ({ taskList := taskListPush sched.taskList newTaskId
     notifyOnes := sched.notifyOnes + 1 },
   newTaskId, effStackSize)

/-- Modelled from the spec: the implementation of `suspendWithUnlock` is
not under src/ (sema.cpp line 112 and timer.cpp line 230 call it, and the
new-generation `schedule_task` in scheduler.cpp carries no unlock hook);
spec sections 4.1 and 5 describe it.  State of one suspending task, the
lock its primitive holds, and one releaser: the task has already
published its waiter node while holding the lock (sema.cpp lines
106-110). -/
structure SWUState where
  waiterPublished : Bool
  switchedOut : Bool
  unlockCalled : Bool
  taskHoldsLock : Bool
  releaserHoldsLock : Bool
  wakeIssued : Bool
deriving DecidableEq

/-- Modelled from the spec: the state right before `suspendWithUnlock`
runs — waiter published, lock held by the suspending task, nothing else
has happened. -/
def swuInit : SWUState :=
  { waiterPublished := true, switchedOut := false, unlockCalled := false,
    taskHoldsLock := true, releaserHoldsLock := false, wakeIssued := false }

/-- Modelled from the spec: the interleaved steps around
`suspendWithUnlock`.  The scheduler fiber invokes the unlock callback
only after the task has switched out of its fiber ("the callback is
invoked by the scheduler fiber after the task has switched out"); a
releaser must take the lock before it can scan the waiter list and wake
the published waiter (sema.cpp lines 143-168). -/
inductive SWUStep : SWUState → SWUState → Prop
  | switchOut (s : SWUState) (h : s.switchedOut = false) :
      SWUStep s { s with switchedOut := true }
  | callUnlock (s : SWUState) (h1 : s.switchedOut = true) (h2 : s.taskHoldsLock = true) :
      SWUStep s { s with taskHoldsLock := false, unlockCalled := true }
  | releaserLock (s : SWUState) (h1 : s.taskHoldsLock = false)
      (h2 : s.releaserHoldsLock = false) :
      SWUStep s { s with releaserHoldsLock := true }
  | releaserWake (s : SWUState) (h1 : s.releaserHoldsLock = true)
      (h2 : s.waiterPublished = true) :
      SWUStep s { s with wakeIssued := true, waiterPublished := false }
  | releaserUnlock (s : SWUState) (h : s.releaserHoldsLock = true) :
      SWUStep s { s with releaserHoldsLock := false }

/-- States reachable from `swuInit` by interleaved steps. -/
inductive SWUReachable : SWUState → Prop
  | init : SWUReachable swuInit
  | step (s s2 : SWUState) (h : SWUReachable s) (hs : SWUStep s s2) : SWUReachable s2

/-- Inductive invariant for the `suspendWithUnlock` protocol: the lock
leaves the suspending task, and hence reaches a releaser or lets a wake
happen, only after the task has switched out. -/
def swuInv (s : SWUState) : Prop :=
  (s.taskHoldsLock = false → s.switchedOut = true) ∧
  (s.releaserHoldsLock = true → s.switchedOut = true) ∧
  (s.wakeIssued = true → s.switchedOut = true)

theorem taskChain_ext {nxt nxt2 : Nat → Option Nat} {h : Option Nat} {l : List Nat}
    (hc : TaskChain nxt h l) (hagree : ∀ x ∈ l, nxt2 x = nxt x) : TaskChain nxt2 h l := by
  induction hc with
  | nil => exact TaskChain.nil
  | cons a l ha ih =>
      refine TaskChain.cons a l ?_
      rw [hagree a (by simp)]
      exact ih (fun x hx => hagree x (by simp [hx]))

theorem taskChain_nil_inv {nxt : Nat → Option Nat} {h : Option Nat}
    (hc : TaskChain nxt h []) : h = none := by
  cases hc
  rfl

theorem taskChain_cons_inv {nxt : Nat → Option Nat} {h : Option Nat} {a : Nat} {l : List Nat}
    (hc : TaskChain nxt h (a :: l)) : h = some a ∧ TaskChain nxt (nxt a) l := by
  cases hc with
  | cons _ _ h2 => exact ⟨rfl, h2⟩

theorem taskChain_snoc {nxt : Nat → Option Nat} {t m : Nat} {h : Option Nat} {l : List Nat}
    (hc : TaskChain nxt h l) :
    l.getLast? = some m → l.Nodup → t ∉ l →
      TaskChain (fun x => if x = t then none else if x = m then some t else nxt x) h (l ++ [t]) := by
  induction hc with
  | nil => intro hlast _ _; simp at hlast
  | cons a l ha ih =>
      intro hlast hnd hni
      cases l with
      | nil =>
          have hma : m = a := by simpa using hlast.symm
          subst hma
          have hmt : ¬ m = t := fun he => hni (by rw [he]; exact List.mem_singleton_self t)
          refine TaskChain.cons m [t] ?_
          rw [if_neg hmt, if_pos rfl]
          refine TaskChain.cons t [] ?_
          rw [if_pos rfl]
          exact TaskChain.nil
      | cons b l2 =>
          have hlast2 : (b :: l2).getLast? = some m := by
            rwa [List.getLast?_cons_cons] at hlast
          have hm2 : m ∈ b :: l2 := by
            obtain ⟨hne, he⟩ := List.mem_getLast?_eq_getLast (l := b :: l2) (x := m)
              (by simp [Option.mem_def, hlast2])
            exact he ▸ List.getLast_mem hne
          have hnd2 : a ∉ b :: l2 ∧ (b :: l2).Nodup := List.nodup_cons.mp hnd
          have ham : ¬ a = m := fun he => hnd2.1 (he ▸ hm2)
          have hat : ¬ a = t := fun he => hni (by simp [he])
          refine TaskChain.cons a ((b :: l2) ++ [t]) ?_
          rw [if_neg hat, if_neg ham]
          exact ih hlast2 hnd2.2 (fun hx => hni (by simp [hx]))

theorem represents_push {s : TaskListState} {q : List Nat} {t : Nat}
    (h : represents s q) (ht : t ∉ q) : represents (taskListPush s t) (q ++ [t]) := by
  obtain ⟨hchain, hlast, hnd⟩ := h
  cases q with
  | nil =>
      have hl : s.last = none := by simpa using hlast
      refine ⟨?_, ?_, ?_⟩
      · show TaskChain (taskListPush s t).nxt (taskListPush s t).front ([] ++ [t])
        simp only [taskListPush, hl, List.nil_append]
        refine TaskChain.cons t [] ?_
        rw [if_pos rfl]
        exact TaskChain.nil
      · simp [taskListPush, hl]
      · simp
  | cons a q2 =>
      obtain ⟨m, hm⟩ := Option.isSome_iff_exists.mp
        (by simp : ((a :: q2).getLast?).isSome)
      have hl : s.last = some m := by rw [hlast, hm]
      refine ⟨?_, ?_, ?_⟩
      · show TaskChain (taskListPush s t).nxt (taskListPush s t).front ((a :: q2) ++ [t])
        simp only [taskListPush, hl]
        exact taskChain_snoc hchain hm hnd ht
      · have hconc : ((a :: q2) ++ [t]).getLast? = some t := List.getLast?_concat _
        simp only [taskListPush, hl]
        exact hconc.symm
      · rw [List.nodup_append]
        exact ⟨hnd, by simp, fun x hx hx2 => ht (by simp at hx2; exact hx2 ▸ hx)⟩

theorem represents_pop {s : TaskListState} {q : List Nat} (h : represents s q) :
    (taskListPop s).1 = q.head? ∧ represents (taskListPop s).2 q.tail := by
  obtain ⟨hchain, hlast, hnd⟩ := h
  cases q with
  | nil =>
      have hf : s.front = none := taskChain_nil_inv hchain
      simp only [taskListPop, hf]
      exact ⟨rfl, hchain, hlast, hnd⟩
  | cons a q2 =>
      obtain ⟨hf, hrest⟩ := taskChain_cons_inv hchain
      have hnd2 : a ∉ q2 ∧ q2.Nodup := List.nodup_cons.mp hnd
      simp only [taskListPop, hf]
      refine ⟨rfl, ?_, ?_, hnd2.2⟩
      · show TaskChain _ (s.nxt a) q2
        refine taskChain_ext hrest (fun x hx => ?_)
        have hxa : ¬ x = a := fun he => hnd2.1 (he ▸ hx)
        simp [hxa]
      · cases q2 with
        | nil =>
            have hna : s.nxt a = none := taskChain_nil_inv hrest
            simp [hna]
        | cons b q3 =>
            have hnb : s.nxt a = some b := (taskChain_cons_inv hrest).1
            have hne : ¬ (s.nxt a = none) := by simp [hnb]
            show (if s.nxt a = none then none else s.last) = (b :: q3).getLast?
            rw [if_neg hne, hlast, List.getLast?_cons_cons]

theorem runTaskList_eq_runQueue (ops : List QOp) :
    ∀ (s : TaskListState) (q : List Nat),
      represents s q → validOps q ops = true → runTaskList s ops = runQueue q ops := by
  induction ops with
  | nil => intro s q _ _; rfl
  | cons op rest ih =>
      intro s q hrep hvalid
      cases op with
      | push t =>
          simp only [validOps, Bool.and_eq_true, Bool.not_eq_true'] at hvalid
          have ht : t ∉ q := by
            intro hmem
            rw [List.contains_eq_any_beq] at hvalid
            have : q.any (t == ·) = true := List.any_eq_true.mpr ⟨t, hmem, by simp⟩
            rw [this] at hvalid
            exact absurd hvalid.1 (by simp)
          simp only [runTaskList, runQueue]
          exact ih _ _ (represents_push hrep ht) hvalid.2
      | pop =>
          have hp := represents_pop hrep
          simp only [runTaskList, runQueue]
          simp only [validOps] at hvalid
          rw [hp.1]
          exact congrArg (List.cons q.head?) (ih _ _ hp.2 hvalid)

/-- C8: starting from the empty list, the intrusive `TaskList` with
`taskListPush`/`taskListPop` is observationally equivalent to the
reference functional FIFO queue: every pop returns the earliest-pushed
task not yet popped, or null when empty, for any operation sequence in
which a pushed task is not already in the list. -/
theorem taskList_refines_fifo_queue (ops : List QOp) (h : validOps [] ops = true) :
    runTaskList emptyTaskList ops = runQueue [] ops :=
  runTaskList_eq_runQueue ops emptyTaskList [] ⟨TaskChain.nil, rfl, List.nodup_nil⟩ h

/-- Witness for C8 at a concrete operation sequence (re-pushing a popped
task is allowed, as when a task yields). -/
theorem taskList_refines_fifo_queue_witness :
    validOps [] [QOp.push 1, QOp.push 2, QOp.pop, QOp.push 1, QOp.pop, QOp.pop, QOp.pop] = true ∧
      runTaskList emptyTaskList
          [QOp.push 1, QOp.push 2, QOp.pop, QOp.push 1, QOp.pop, QOp.pop, QOp.pop] =
        runQueue [] [QOp.push 1, QOp.push 2, QOp.pop, QOp.push 1, QOp.pop, QOp.pop, QOp.pop] :=
  ⟨by decide, taskList_refines_fifo_queue _ (by decide)⟩

/-- C1 (code bug): with a thread attached to scheduler 0 whose current
task is the initial-task placeholder and `activeThreads = 1`,
`detachFromThread` hits the inverted guard `if (nullptr != thread)` and
returns at once: `activeThreads` stays 1 (not decremented) and no
`notify_all` broadcast happens, although the claimed behaviour would
decrement the count to zero and broadcast. -/
theorem detachFromThread_early_return_bug :
    detachFromThread (some { schedId := 0, currentIsInitial := true }) 0
        { activeThreads := 1, broadcasts := 0 } =
      (DetachOutcome.earlyReturn, { activeThreads := 1, broadcasts := 0 }) :=
  rfl

/-- C2 (code bug): the heap `[10, 5, 6, 7, 1]` satisfies the 4-ary heap
property everywhere except at the root (indices 1-4 are the root's
children, so there is no other parent-child pair), yet `heapBubbleDown`
from index 0 produces `[6, 5, 10, 7, 1]`, which is not a 4-ary min-heap:
the scan never examines the fourth child at index 4 (it looks at
`timerIndex + 2` and `timerIndex + 3` instead of `4*timerIndex + 3` and
`4*timerIndex + 4`) and prefers child 2 (value 6) over child 1 (value 5)
because it compares child 2 against the sifted node instead of against
child 1. -/
theorem heapBubbleDown_breaks_heap_on_failing_input :
    minHeap4ExceptRoot [10, 5, 6, 7, 1] ∧
      heapBubbleDown [10, 5, 6, 7, 1] 0 = [6, 5, 10, 7, 1] ∧
      ¬ isMinHeap4 (heapBubbleDown [10, 5, 6, 7, 1] 0) := by
  refine ⟨by decide, ?_, ?_⟩
  · simp only [heapBubbleDown]
    rw [heapBubbleDownLoop]
    norm_num [bubbleCandidate]
    rw [heapBubbleDownLoop]
    norm_num [bubbleCandidate]
  · have h : heapBubbleDown [10, 5, 6, 7, 1] 0 = [6, 5, 10, 7, 1] := by
      simp only [heapBubbleDown]
      rw [heapBubbleDownLoop]
      norm_num [bubbleCandidate]
      rw [heapBubbleDownLoop]
      norm_num [bubbleCandidate]
    rw [h]
    decide

/-- C3 (counterexample): scheduler 0 and scheduler 1 both start with
empty run queues; task 42 was spawned on scheduler 0, but the calling
thread is attached to scheduler 1.  `wake` leaves scheduler 0's run
queue empty and unnotified and enqueues the task on scheduler 1 — the
task is NOT appended to the run queue of the scheduler that owns it. -/
theorem wake_cross_scheduler_counterexample :
    ∃ w2,
      wake (some true) (some 42) ⟨⟨emptyTaskList, 0⟩, ⟨emptyTaskList, 0⟩⟩ = WakeOutcome.ok w2 ∧
        w2.s0.taskList.front = none ∧ w2.s0.notifyOnes = 0 ∧
        w2.s1.taskList.front = some 42 ∧ w2.s1.notifyOnes = 1 :=
  ⟨_, rfl, rfl, rfl, rfl, rfl⟩

/-- C3 (amended): `wake(t)` appends `t` to the run queue of the
scheduler the CALLING thread is attached to and issues exactly one
`notify_one` on that scheduler's condvar, leaving the other scheduler
untouched; only when the caller is attached to the owning scheduler is
this the owner's queue. -/
theorem wake_enqueues_on_callers_scheduler (w : WakeWorld) (caller : Bool) (t : Nat)
    (q : List Nat) (hrep : represents (schedOf w caller).taskList q) (ht : t ∉ q) :
    ∃ w2, wake (some caller) (some t) w = WakeOutcome.ok w2 ∧
      represents (schedOf w2 caller).taskList (q ++ [t]) ∧
      (schedOf w2 caller).notifyOnes = (schedOf w caller).notifyOnes + 1 ∧
      schedOf w2 (!caller) = schedOf w (!caller) := by
  cases caller with
  | false => exact ⟨_, rfl, represents_push hrep ht, rfl, rfl⟩
  | true => exact ⟨_, rfl, represents_push hrep ht, rfl, rfl⟩

/-- Witness for C3's amended theorem at a concrete world. -/
theorem wake_enqueues_on_callers_scheduler_witness :
    ∃ w2,
      wake (some false) (some 3) ⟨⟨emptyTaskList, 0⟩, ⟨emptyTaskList, 5⟩⟩ = WakeOutcome.ok w2 ∧
        represents (schedOf w2 false).taskList ([] ++ [3]) ∧
        (schedOf w2 false).notifyOnes =
          (schedOf ⟨⟨emptyTaskList, 0⟩, ⟨emptyTaskList, 5⟩⟩ false).notifyOnes + 1 ∧
        schedOf w2 (!false) = schedOf ⟨⟨emptyTaskList, 0⟩, ⟨emptyTaskList, 5⟩⟩ (!false) :=
  wake_enqueues_on_callers_scheduler _ false 3 []
    ⟨TaskChain.nil, rfl, List.nodup_nil⟩ (by simp)

/-- C9: `spawn` with `stack_size == 0` creates the fiber with a 1 MiB
stack, appends the new task to the scheduler's run queue, issues exactly
one `notify_one`, and returns the (non-null) new task. -/
theorem spawn_default_stack_enqueues_and_notifies (sched : SchedulerState) (t : Nat)
    (q : List Nat) (hrep : represents sched.taskList q) (ht : t ∉ q) :
    (spawn sched t 0).2.2 = 1024 * 1024 ∧
      represents (spawn sched t 0).1.taskList (q ++ [t]) ∧
      (spawn sched t 0).1.notifyOnes = sched.notifyOnes + 1 ∧
      (spawn sched t 0).2.1 = t :=
  ⟨rfl, represents_push hrep ht, rfl, rfl⟩

/-- Witness for C9 at a concrete scheduler. -/
theorem spawn_default_stack_enqueues_and_notifies_witness :
    (spawn ⟨emptyTaskList, 0⟩ 7 0).2.2 = 1024 * 1024 ∧
      represents (spawn ⟨emptyTaskList, 0⟩ 7 0).1.taskList ([] ++ [7]) ∧
      (spawn ⟨emptyTaskList, 0⟩ 7 0).1.notifyOnes =
        (SchedulerState.mk emptyTaskList 0).notifyOnes + 1 ∧
      (spawn ⟨emptyTaskList, 0⟩ 7 0).2.1 = 7 :=
  spawn_default_stack_enqueues_and_notifies _ 7 []
    ⟨TaskChain.nil, rfl, List.nodup_nil⟩ (by simp)

/-- C6 (counterexample): with the permit counter at `2^32 - 1`,
`release` wraps the `uint32_t` counter to 0, and the following
`acquire` fast path fails (returns false, counter 0) instead of
removing the released permit — the round trip does not restore the
counter to `2^32 - 1`. -/
theorem release_acquire_roundtrip_counterexample :
    semaReleaseCounter (2 ^ 32 - 1) = 0 ∧
      releaseThenAcquire (2 ^ 32 - 1) = (false, 0) ∧
      (2 ^ 32 - 1 : Nat) ≠ 0 := by
  refine ⟨by decide, ?_, by decide⟩
  show semaTryAcquire (semaReleaseCounter (2 ^ 32 - 1)) = (false, 0)
  decide

/-- C6 (amended): for every counter value strictly below `2^32 - 1`
(no overflow of the `uint32_t` increment), `release()` followed by
`acquire()` with no waiters on the root bucket and no other
participants succeeds and leaves the permit counter at its original
value. -/
theorem release_acquire_roundtrip (s : Nat) (h : s < 2 ^ 32 - 1) :
    releaseThenAcquire s = (true, s) := by
  unfold releaseThenAcquire semaReleaseCounter semaTryAcquire
  rw [Nat.mod_eq_of_lt (by omega)]
  rw [if_neg (by omega)]
  norm_num

/-- Witness for C6's amended theorem. -/
theorem release_acquire_roundtrip_witness :
    7 < 2 ^ 32 - 1 ∧ releaseThenAcquire 7 = (true, 7) :=
  ⟨by decide, release_acquire_roundtrip 7 (by decide)⟩

theorem semaTrace_lt (ops : List SemaOp) :
    ∀ s, s < 2 ^ 32 → ∀ x ∈ semaTrace s ops, x < 2 ^ 32 := by
  induction ops with
  | nil => intro s _ x hx; simp [semaTrace] at hx
  | cons op rest ih =>
      intro s hs x hx
      have hstep : semaCounterStep s op < 2 ^ 32 := by
        cases op with
        | tryAcq => simp only [semaCounterStep, semaTryAcquire]; split <;> omega
        | acqFast => simp only [semaCounterStep, semaTryAcquire]; split <;> omega
        | release => simp only [semaCounterStep, semaReleaseCounter]; omega
      simp only [semaTrace, List.mem_cons] at hx
      cases hx with
      | inl he => exact he ▸ hstep
      | inr hmem => exact ih _ hstep x hmem

/-- C7: the permit counter never underflows: `try_acquire` on a zero
counter returns false and leaves the counter unchanged (and, being the
fast path only, never blocks); a decrement happens only from a value
strictly greater than zero, and removes exactly one permit; and any
sequence of `try_acquire` / `acquire`-fast-path / `release` operations
keeps the counter inside the `uint32_t` range. -/
theorem sema_counter_never_underflows :
    semaTryAcquire 0 = (false, 0) ∧
      (∀ s, (semaTryAcquire s).1 = true → 0 < s ∧ (semaTryAcquire s).2 = s - 1) ∧
      (∀ s ops, s < 2 ^ 32 → ∀ x ∈ semaTrace s ops, x < 2 ^ 32) := by
  refine ⟨rfl, ?_, fun s ops hs => semaTrace_lt ops s hs⟩
  intro s hs
  by_cases h : s = 0
  · subst h; simp [semaTryAcquire] at hs
  · exact ⟨Nat.pos_of_ne_zero h, by simp [semaTryAcquire, h]⟩

/-- Witness for C7 at concrete counters and a concrete op sequence. -/
theorem sema_counter_never_underflows_witness :
    (0 < 1 ∧ (semaTryAcquire 1).2 = 1 - 1) ∧
      ∀ x ∈ semaTrace 3 [SemaOp.release, SemaOp.tryAcq, SemaOp.acqFast], x < 2 ^ 32 :=
  ⟨sema_counter_never_underflows.2.1 1 rfl,
    sema_counter_never_underflows.2.2 3 _ (by decide)⟩

theorem releaseFindWaiter_eq (s : Nat) (l : List Waiter) :
    releaseFindWaiter s l =
      (l.find? (fun w => w.sema == s), l.eraseP (fun w => w.sema == s)) := by
  induction l with
  | nil => rfl
  | cons w rest ih =>
      by_cases h : w.sema = s
      · simp [releaseFindWaiter, h]
      · simp [releaseFindWaiter, h, ih]

theorem foldl_waiterPush (pushes : List Waiter) :
    ∀ acc, pushes.foldl waiterPush acc = pushes.reverse ++ acc := by
  induction pushes with
  | nil => intro acc; simp
  | cons w rest ih => intro acc; simp [waiterPush, ih]

theorem bucketOfPushes_eq_reverse (pushes : List Waiter) :
    bucketOfPushes pushes = pushes.reverse := by
  simp [bucketOfPushes, foldl_waiterPush]

theorem find?_reverse_eq_getLast?_filter (p : Waiter → Bool) (l : List Waiter) :
    l.reverse.find? p = (l.filter p).getLast? := by
  induction l with
  | nil => rfl
  | cons a l ih =>
      rw [List.reverse_cons, List.find?_append, ih]
      by_cases h : p a = true
      · rw [List.filter_cons_of_pos h]
        have hfa : [a].find? p = some a := by simp [List.find?_cons, h]
        rw [hfa]
        cases hfl : l.filter p with
        | nil => simp
        | cons b xs =>
            obtain ⟨y, hy⟩ := Option.isSome_iff_exists.mp
              (by simp : ((b :: xs).getLast?).isSome)
            rw [hy, List.getLast?_cons_cons, hy]
            rfl
      · rw [List.filter_cons_of_neg h]
        have hfa : [a].find? p = none := by simp [List.find?_cons, h]
        rw [hfa]
        exact Option.or_none

/-- C10: acquirers park by pushing their `Waiter` node at the head of
the root bucket's list, and `release` unlinks the first node matching
its semaphore found walking from the head; so with at least two parked
waiters of the same semaphore the woken waiter is the most recently
parked one (the last matching element of the chronological push
sequence), and exactly that node is unlinked. -/
theorem release_wakes_most_recent_waiter (pushes : List Waiter) (semaId : Nat)
    (h : 2 ≤ (pushes.filter (fun w => w.sema == semaId)).length) :
    ∃ w0, (pushes.filter (fun w => w.sema == semaId)).getLast? = some w0 ∧
      (releaseFindWaiter semaId (bucketOfPushes pushes)).1 = some w0 ∧
      (releaseFindWaiter semaId (bucketOfPushes pushes)).2 =
        (bucketOfPushes pushes).eraseP (fun w => w.sema == semaId) := by
  have hne : pushes.filter (fun w => w.sema == semaId) ≠ [] := by
    intro he
    rw [he] at h
    simp at h
  obtain ⟨w0, hw0⟩ := Option.isSome_iff_exists.mp
    ((List.getLast?_isSome).mpr hne)
  refine ⟨w0, hw0, ?_, ?_⟩
  · rw [releaseFindWaiter_eq, bucketOfPushes_eq_reverse]
    show (pushes.reverse.find? fun w => w.sema == semaId) = some w0
    rw [find?_reverse_eq_getLast?_filter]
    exact hw0
  · rw [releaseFindWaiter_eq]

/-- Witness for C10: two waiters of semaphore 7 (tasks 1 and 3) and one
of semaphore 9 park in order; release on semaphore 7 picks the waiter
of task 3, the most recently parked matching one. -/
theorem release_wakes_most_recent_waiter_witness :
    2 ≤ (([⟨1, 7⟩, ⟨2, 9⟩, ⟨3, 7⟩] : List Waiter).filter (fun w => w.sema == 7)).length ∧
      ∃ w0,
        (([⟨1, 7⟩, ⟨2, 9⟩, ⟨3, 7⟩] : List Waiter).filter (fun w => w.sema == 7)).getLast?
            = some w0 ∧
          (releaseFindWaiter 7 (bucketOfPushes [⟨1, 7⟩, ⟨2, 9⟩, ⟨3, 7⟩])).1 = some w0 ∧
          (releaseFindWaiter 7 (bucketOfPushes [⟨1, 7⟩, ⟨2, 9⟩, ⟨3, 7⟩])).2 =
            (bucketOfPushes [⟨1, 7⟩, ⟨2, 9⟩, ⟨3, 7⟩]).eraseP (fun w => w.sema == 7) :=
  ⟨by decide, release_wakes_most_recent_waiter [⟨1, 7⟩, ⟨2, 9⟩, ⟨3, 7⟩] 7 (by decide)⟩

theorem wgShiftedDelta_eq (delta : Int) :
    wgShiftedDelta delta = (delta % (2 ^ 32 : Int)).toNat * 2 ^ 32 := by
  unfold wgShiftedDelta
  have h1 : delta % (2 ^ 64 : Int) % (2 ^ 32 : Int) = delta % (2 ^ 32 : Int) :=
    Int.emod_emod_of_dvd delta (by norm_num)
  omega

theorem wgAdd_st (state : Nat) (delta : Int) :
    (wgAdd state delta).st = (state + wgShiftedDelta delta) % 2 ^ 64 := by
  simp only [wgAdd]
  split <;> rfl

theorem wgAdd_zero_count (state : Nat) (delta : Int)
    (h : asInt32 ((state + wgShiftedDelta delta) % 2 ^ 64 / 2 ^ 32) = 0)
    (hw : 0 < (state + wgShiftedDelta delta) % 2 ^ 64 % 2 ^ 32) :
    (wgAdd state delta).finalState = 0 ∧
      (wgAdd state delta).releases = (state + wgShiftedDelta delta) % 2 ^ 64 % 2 ^ 32 := by
  simp only [wgAdd]
  rw [if_pos ⟨h, hw⟩]
  exact ⟨rfl, rfl⟩

/-- C5: `WaitGroup::add(delta)` adds `uint64(delta) << 32` to the packed
word modulo `2^64`: the low 32 bits (the waiter count) are unchanged,
the high 32 bits become the old signed count plus `delta` modulo `2^32`;
and when the resulting count is zero while the waiter count is positive,
the whole word is stored as zero and the semaphore is released exactly
once per recorded waiter. -/
theorem wgAdd_spec (state : Nat) (delta : Int) (hs : state < 2 ^ 64)
    (hd : -(2 ^ 31) ≤ delta ∧ delta < 2 ^ 31) :
    (wgAdd state delta).st % 2 ^ 32 = state % 2 ^ 32 ∧
      (wgAdd state delta).st / 2 ^ 32 =
        (state / 2 ^ 32 + (delta % (2 ^ 32 : Int)).toNat) % 2 ^ 32 ∧
      ((wgAdd state delta).st / 2 ^ 32 = 0 → 0 < (wgAdd state delta).st % 2 ^ 32 →
        (wgAdd state delta).finalState = 0 ∧
          (wgAdd state delta).releases = (wgAdd state delta).st % 2 ^ 32) := by
  have hshift := wgShiftedDelta_eq delta
  have hd32 : (delta % (2 ^ 32 : Int)).toNat < 2 ^ 32 := by omega
  have hst := wgAdd_st state delta
  refine ⟨?_, ?_, ?_⟩
  · rw [hst, hshift]
    omega
  · rw [hst, hshift]
    omega
  · intro h0 hwait
    rw [hst] at h0 hwait
    have hz : asInt32 ((state + wgShiftedDelta delta) % 2 ^ 64 / 2 ^ 32) = 0 := by
      rw [h0]
      simp [asInt32]
    have hfin := wgAdd_zero_count state delta hz hwait
    rw [hst]
    exact hfin

/-- Witness for C5: word with count 1 and two waiters, `add(-1)`. -/
theorem wgAdd_spec_witness :
    (wgAdd (2 ^ 32 + 2) (-1)).st % 2 ^ 32 = (2 ^ 32 + 2) % 2 ^ 32 ∧
      (wgAdd (2 ^ 32 + 2) (-1)).st / 2 ^ 32 =
        ((2 ^ 32 + 2) / 2 ^ 32 + ((-1 : Int) % (2 ^ 32 : Int)).toNat) % 2 ^ 32 ∧
      ((wgAdd (2 ^ 32 + 2) (-1)).st / 2 ^ 32 = 0 → 0 < (wgAdd (2 ^ 32 + 2) (-1)).st % 2 ^ 32 →
        (wgAdd (2 ^ 32 + 2) (-1)).finalState = 0 ∧
          (wgAdd (2 ^ 32 + 2) (-1)).releases = (wgAdd (2 ^ 32 + 2) (-1)).st % 2 ^ 32) :=
  wgAdd_spec (2 ^ 32 + 2) (-1) (by decide) ⟨by decide, by decide⟩

theorem swuInv_init : swuInv swuInit := by
  refine ⟨?_, ?_, ?_⟩ <;> intro h <;> simp [swuInit] at h

theorem swuInv_step {s s2 : SWUState} (hinv : swuInv s) (hs : SWUStep s s2) : swuInv s2 := by
  obtain ⟨hi1, hi2, hi3⟩ := hinv
  cases hs with
  | switchOut h => exact ⟨fun _ => rfl, fun _ => rfl, fun _ => rfl⟩
  | callUnlock ha hb => exact ⟨fun _ => ha, fun _ => ha, fun _ => ha⟩
  | releaserLock ha hb =>
      have hsw : s.switchedOut = true := hi1 ha
      exact ⟨fun _ => hsw, fun _ => hsw, fun _ => hsw⟩
  | releaserWake ha hb =>
      have hsw : s.switchedOut = true := hi2 ha
      exact ⟨fun _ => hsw, fun _ => hsw, fun _ => hsw⟩
  | releaserUnlock ha =>
      have hsw : s.switchedOut = true := hi2 ha
      exact ⟨fun _ => hsw, fun _ => hsw, fun _ => hsw⟩

theorem swuReachable_inv {s : SWUState} (h : SWUReachable s) : swuInv s := by
  induction h with
  | init => exact swuInv_init
  | step s s2 hr hs ih => exact swuInv_step ih hs

/-- C4 (modelled from the spec, the `suspendWithUnlock` implementation
being absent from src/): in every state reachable from the point where a
suspending task has published its waiter while holding the protected
lock, a wake of that task can only have been issued after the task
switched out of its fiber — the scheduler fiber releases the lock only
after the switch-out, and a releaser must hold the lock to find and wake
the waiter, so no wake can observe the task as wakeable before it is
parked. -/
theorem suspendWithUnlock_wake_only_after_park (s : SWUState) (h : SWUReachable s)
    (hw : s.wakeIssued = true) : s.switchedOut = true :=
  (swuReachable_inv h).2.2 hw

/-- Witness for C4: the interleaving switch-out, unlock, releaser-lock,
releaser-wake reaches a state with `wakeIssued`, and the theorem yields
`switchedOut` there. -/
theorem suspendWithUnlock_wake_only_after_park_witness :
    SWUReachable (⟨false, true, true, false, true, true⟩ : SWUState) ∧
      (⟨false, true, true, false, true, true⟩ : SWUState).switchedOut = true := by
  have h1 : SWUReachable (⟨true, true, false, true, false, false⟩ : SWUState) :=
    SWUReachable.step swuInit _ SWUReachable.init (SWUStep.switchOut swuInit rfl)
  have h2 : SWUReachable (⟨true, true, true, false, false, false⟩ : SWUState) :=
    SWUReachable.step _ _ h1 (SWUStep.callUnlock _ rfl rfl)
  have h3 : SWUReachable (⟨true, true, true, false, true, false⟩ : SWUState) :=
    SWUReachable.step _ _ h2 (SWUStep.releaserLock _ rfl rfl)
  have h4 : SWUReachable (⟨false, true, true, false, true, true⟩ : SWUState) :=
    SWUReachable.step _ _ h3 (SWUStep.releaserWake _ rfl rfl)
  exact ⟨h4, suspendWithUnlock_wake_only_after_park _ h4 rfl⟩
